import Mathlib

/-!
# Verification of the People's Court corpus/retrieval system

Shallow embedding of the system's core algorithms and frontend logic:

* the Reciprocal Rank Fusion (RRF) hybrid-retrieval engine
  (modelled from the spec: the backend retrieval code is not part of
  the frontend sources, only its contract is specified);
* the verdict labeler's disagreement resolution;
* the ingestor's bounded top-3 comment retention;
* the adjudicate API route's precedent enrichment and in-memory rate
  limiter (from `src/frontend/src/app/api/adjudicate/route.ts`);
* the `useAdjudicate` hook's sticky partial-result parsing
  (from `src/frontend/src/hooks/use-adjudicate.ts`).
-/

namespace PeoplesCourt

/-! ## Reciprocal Rank Fusion

Modelled from the spec: the Hybrid Retrieval & Fusion Engine
(spec section 4.5) lives in the Python backend, which is not among the
frontend sources; the definitions below follow the spec's contract.
A ranked list is a `List Nat` of submission ids in rank order
(rank = 1-based position, no ties within a list). Scores are exact
rationals. -/

/-- 1-based rank of `id` in the ranked list, searching from rank `r`. -/
def rankFrom : List Nat → Nat → Nat → Option Nat
  | [], _, _ => none
  | x :: xs, id, r => if x = id then some r else rankFrom xs id (r + 1)

/-- 1-based rank of `id` in a ranked list (`none` when absent). -/
def rankIn (l : List Nat) (id : Nat) : Option Nat := rankFrom l id 1

/-- Modelled from the spec: the contribution of one ranked list to a
submission's fused score: `1/(C + rank)` when present, plus the top-rank
bonus when the submission is that list's rank-1 result; 0 when absent. -/
def listContrib (C bonus : ℚ) (l : List Nat) (id : Nat) : ℚ :=
  match rankIn l id with
  | none => 0
  | some r => 1 / (C + (r : ℚ)) + (if r = 1 then bonus else 0)

/-- Modelled from the spec: the accumulated RRF score of a submission over
the dense and sparse ranked lists. -/
def fusedScore (C bonus : ℚ) (dense sparse : List Nat) (id : Nat) : ℚ :=
  listContrib C bonus dense id + listContrib C bonus sparse id

/-- The pool of fused candidates: every submission appearing in either list. -/
def candidates (dense sparse : List Nat) : List Nat :=
  (dense ++ sparse).dedup

/-- Final ordering on scored candidates: accumulated score descending,
ties broken by lower submission id. -/
def fuseOrder (a b : Nat × ℚ) : Prop :=
  b.2 < a.2 ∨ (a.2 = b.2 ∧ a.1 ≤ b.1)

instance : DecidableRel fuseOrder := fun a b => by
  unfold fuseOrder; infer_instance

instance : IsTotal (Nat × ℚ) fuseOrder where
  total a b := by
    unfold fuseOrder
    rcases lt_trichotomy a.2 b.2 with h | h | h
    · exact Or.inr (Or.inl h)
    · rcases Nat.le_total a.1 b.1 with h1 | h1
      · exact Or.inl (Or.inr ⟨h, h1⟩)
      · exact Or.inr (Or.inr ⟨h.symm, h1⟩)
    · exact Or.inl (Or.inl h)

instance : IsTrans (Nat × ℚ) fuseOrder where
  trans a b c hab hbc := by
    unfold fuseOrder at *
    rcases hab with h1 | ⟨h1, h1'⟩ <;> rcases hbc with h2 | ⟨h2, h2'⟩
    · exact Or.inl (h2.trans h1)
    · exact Or.inl (h2 ▸ h1)
    · exact Or.inl (h1 ▸ h2)
    · exact Or.inr ⟨h1.trans h2, h1'.trans h2'⟩

instance : IsAntisymm (Nat × ℚ) fuseOrder where
  antisymm a b hab hba := by
    unfold fuseOrder at *
    rcases hab with h1 | ⟨h1, h1'⟩ <;> rcases hba with h2 | ⟨h2, h2'⟩
    · exact absurd (h1.trans h2) (lt_irrefl _)
    · exact absurd h1 (h2 ▸ lt_irrefl _)
    · exact absurd h2 (h1 ▸ lt_irrefl _)
    · exact Prod.ext (Nat.le_antisymm h1' h2') h1

/-- Modelled from the spec: score every candidate from the given pool and
sort by `fuseOrder` (score descending, lower id first on ties). -/
def fuseFrom (C bonus : ℚ) (dense sparse : List Nat) (pool : List Nat) :
    List (Nat × ℚ) :=
  List.insertionSort fuseOrder
    (pool.map fun id => (id, fusedScore C bonus dense sparse id))

/-- All fused candidates, scored and sorted. -/
def fuseAll (C bonus : ℚ) (dense sparse : List Nat) : List (Nat × ℚ) :=
  fuseFrom C bonus dense sparse (candidates dense sparse)

/-- Modelled from the spec: the fusion operation — score, sort, take `k`. -/
def fuse (C bonus : ℚ) (k : Nat) (dense sparse : List Nat) :
    List (Nat × ℚ) :=
  (fuseAll C bonus dense sparse).take k

/-! ## Verdict Labeler

Modelled from the spec: the labeler (spec section 4.2, step 3) lives in
the Python backend (`02_label.py`), not among the frontend sources. A
retained comment votes an optional verdict label with its score; label
disagreement is resolved by comparing the sum of scores of the comments
agreeing with each candidate label, and an exact tie leaves the
submission unlabeled. -/

inductive VerdictLabel
  | YTA | NTA | ESH | NAH
deriving DecidableEq, Repr

/-- The four verdict labels. -/
def allLabels : List VerdictLabel := [.YTA, .NTA, .ESH, .NAH]

/-- A retained comment's vote: the label its body yielded (if any) and
its community score. -/
structure LabelVote where
  label : Option VerdictLabel
  score : Nat
deriving DecidableEq, Repr

/-- Sum of scores of the comments agreeing with label `v`. -/
def aggScore (votes : List LabelVote) (v : VerdictLabel) : Nat :=
  (votes.filter fun c => c.label = some v).foldl (fun acc c => acc + c.score) 0

/-- Modelled from the spec: resolve the submission's verdict label: the
label with the strictly highest aggregate score among the labels any
comment yielded wins; an exact tie (or no vote at all) leaves the
submission unlabeled. -/
def resolveLabel (votes : List LabelVote) : Option VerdictLabel :=
  allLabels.find? fun v =>
    decide ((∃ c ∈ votes, c.label = some v) ∧
      ∀ w ∈ allLabels, (∃ c ∈ votes, c.label = some w) → w ≠ v →
        aggScore votes w < aggScore votes v)

/-- Every verdict label is listed in `allLabels`. -/
theorem mem_allLabels (u : VerdictLabel) : u ∈ allLabels := by
  cases u <;> simp [allLabels]

/-! ## Ingestor: bounded top-3 comment retention

Modelled from the spec: the ingestor (spec section 4.1, `01_ingest.py`)
lives in the Python backend. Per submission it keeps at most `N = 3`
comments in a bounded min-priority structure keyed by score; once 3
distinct comments have been seen, a candidate replaces the
minimum-scored retained comment only if its score strictly exceeds that
minimum; retention ties are broken in favour of the earliest observed
comment. A comment is modelled by its arrival index and score. -/

structure RComment where
  arrival : Nat
  score : Nat
deriving DecidableEq, Repr

/-- Retention priority: `c` beats `d` when its score is strictly higher,
or on equal scores when it was observed earlier. -/
def prio (c d : RComment) : Prop :=
  d.score < c.score ∨ (c.score = d.score ∧ c.arrival < d.arrival)

instance : DecidableRel prio := fun c d => by
  unfold prio; infer_instance

/-- The lower-priority (worse) of two retained comments. -/
def worse (c d : RComment) : RComment := if prio c d then d else c

/-- The minimum-priority comment among `c :: S`. -/
def worstOf (c : RComment) (S : List RComment) : RComment :=
  S.foldl worse c

/-- Modelled from the spec: one retention step. With fewer than 3
retained comments the candidate is appended; otherwise the candidate
replaces the minimum-scored retained comment (latest observed among
equal minima) exactly when its score strictly exceeds that minimum. -/
def retainStep (S : List RComment) (c : RComment) : List RComment :=
  match S with
  | [] => [c]
  | s :: rest =>
    if (s :: rest).length < 3 then s :: rest ++ [c]
    else
      let m := worstOf s rest
      if m.score < c.score then (s :: rest).erase m ++ [c] else s :: rest

/-- Modelled from the spec: retained comments after processing a stream. -/
def retain (cs : List RComment) : List RComment :=
  cs.foldl retainStep []

theorem retainStep_nil (c : RComment) : retainStep [] c = [c] := rfl

theorem retainStep_cons (s : RComment) (rest : List RComment)
    (c : RComment) :
    retainStep (s :: rest) c =
      if (s :: rest).length < 3 then s :: rest ++ [c]
      else if (worstOf s rest).score < c.score
        then (s :: rest).erase (worstOf s rest) ++ [c] else s :: rest := rfl

theorem retainStep_cons_lt {s : RComment} {rest : List RComment}
    (c : RComment) (h : (s :: rest).length < 3) :
    retainStep (s :: rest) c = s :: rest ++ [c] := by
  rw [retainStep_cons, if_pos h]

theorem retainStep_cons_ge {s : RComment} {rest : List RComment}
    (c : RComment) (h : ¬ (s :: rest).length < 3) :
    retainStep (s :: rest) c =
      if (worstOf s rest).score < c.score
        then (s :: rest).erase (worstOf s rest) ++ [c] else s :: rest := by
  rw [retainStep_cons, if_neg h]

/-! ## Adjudicate route: precedent enrichment

From `src/frontend/src/app/api/adjudicate/route.ts` (the "Final
Enrichment" block): the retrieved precedents are put in a `Map` keyed by
`id` (later entries overwrite earlier ones), and each citation emitted
by the judge is looked up by its `case_id`; a hit is merged as
`\x7b ...data, ...cite \x7d` (the citation's own three fields are kept, the
retrieved submission's fields are added), a miss passes the citation
through unchanged. -/

structure RetComment where
  author : String
  body : String
  score : Int
deriving DecidableEq, Repr

/-- A retrieved precedent as returned by the retrieval backend. -/
structure Retrieved where
  id : String
  title : String
  text : String
  verdict : String
  comments : List RetComment
deriving DecidableEq, Repr

/-- A citation produced by the judge model (zod schema of the route). -/
structure Cite where
  case_id : String
  case_name : String
  comparison : String
deriving DecidableEq, Repr

/-- An element of the route's final `data-result` precedents array: the
citation fields always, the retrieved submission's fields only when the
lookup hit. -/
structure EnrichedPrecedent where
  id : Option String
  title : Option String
  text : Option String
  verdict : Option String
  comments : Option (List RetComment)
  case_id : String
  case_name : String
  comparison : String
deriving DecidableEq, Repr

/-- `new Map(precedents.map(p => [p.id, p])).get(key)`: the last
precedent with the given id wins. -/
def dbMapGet (ps : List Retrieved) (key : String) : Option Retrieved :=
  ps.foldl (fun acc p => if p.id = key then some p else acc) none

/-- One step of the route's enrichment: `data ? \x7b...data, ...cite\x7d : cite`. -/
def enrichOne (ps : List Retrieved) (cite : Cite) : EnrichedPrecedent :=
  match dbMapGet ps cite.case_id with
  | some d =>
    ⟨some d.id, some d.title, some d.text, some d.verdict, some d.comments,
      cite.case_id, cite.case_name, cite.comparison⟩
  | none =>
    ⟨none, none, none, none, none,
      cite.case_id, cite.case_name, cite.comparison⟩

/-- The enriched precedents list written in the route's `data-result`. -/
def enrichPrecedents (ps : List Retrieved) (cites : List Cite) :
    List EnrichedPrecedent :=
  cites.map (enrichOne ps)

/-! ## Adjudicate route: in-memory rate limiter

From `src/frontend/src/app/api/adjudicate/route.ts`: a module-level
`Map<string, \x7bcount, lastReset\x7d>` keyed by the client identity (first
`x-forwarded-for` address, else `"anonymous"`), `RATE_LIMIT = 3`
requests per `WINDOW_MS = 60_000` ms window. If more than the window
has elapsed since the entry's `lastReset` the counter is reset to 0;
a request finding `count >= RATE_LIMIT` is answered with status 429
before the retrieval backend or the judge model is contacted
(`.proceed` below is the only branch that reaches them). -/

def RATE_LIMIT : Nat := 3

def WINDOW_MS : Nat := 60 * 1000

structure LimitEntry where
  count : Nat
  lastReset : Nat
deriving DecidableEq, Repr

/-- The rate limiter's process-wide state: the entry map. -/
def RLState : Type := String → Option LimitEntry

/-- The state at process start: no entries. -/
def emptyRL : RLState := fun _ => none

/-- `req.headers.get("x-forwarded-for")?.split(",")[0] || "anonymous"`. -/
def clientKey (xff : Option String) : String :=
  match xff with
  | none => "anonymous"
  | some s =>
    let first := (s.splitOn ",").headD ""
    if first = "" then "anonymous" else first

/-- One rate-limit check: returns whether the request is admitted and
the updated state (unchanged when the request is rejected). -/
def rlCheck (st : RLState) (ip : String) (now : Nat) : Bool × RLState :=
  let e0 := (st ip).getD ⟨0, now⟩
  let e := if WINDOW_MS < now - e0.lastReset then ⟨0, now⟩ else e0
  if RATE_LIMIT ≤ e.count then (false, st)
  else (true, fun k => if k = ip then some ⟨e.count + 1, e.lastReset⟩ else st k)

/-- What the route does with a request: `rateLimited` is the early 429
return (no backend/judge call); `proceed` is the branch that invokes
the retrieval backend and the judge model. -/
inductive RouteOutcome
  | rateLimited
  | proceed
deriving DecidableEq, Repr

/-- HTTP status of the early rate-limit return. -/
def statusOf : RouteOutcome → Option Nat
  | .rateLimited => some 429
  | .proceed => none

/-- An inbound request, as seen by the limiter. -/
structure RLRequest where
  xff : Option String
  time : Nat
deriving DecidableEq, Repr

/-- The route's rate-limiting prologue on one request. -/
def routeStep (st : RLState) (r : RLRequest) : RouteOutcome × RLState :=
  let (ok, st') := rlCheck st (clientKey r.xff) r.time
  if ok then (.proceed, st') else (.rateLimited, st')

/-- Number of requests of client `c` admitted (`.proceed`) along a trace
starting from state `st`. -/
def acceptedCount (st : RLState) (rs : List RLRequest) (c : String) : Nat :=
  match rs with
  | [] => 0
  | r :: rest =>
    let (o, st') := routeStep st r
    (if clientKey r.xff = c ∧ o = .proceed then 1 else 0) +
      acceptedCount st' rest c

/-! ## useAdjudicate hook: sticky partial result

From `src/frontend/src/hooks/use-adjudicate.ts`: the streamed tokens
are trimmed, required to start with a brace, completed by a
balanced-bracket/quote scan, and parsed; a successful parse becomes the
new `partialResult` and is stored in a sticky ref, a failed parse
leaves the sticky value in place, and `adjudicate()` clears the ref and
the messages. `JSON.parse` itself is a library primitive, modelled by
an arbitrary partial function `jsonParse`; strings are modelled as
`List Char`. -/

/-- JS whitespace as far as the hook's `trim()` call is concerned. -/
def isWs (c : Char) : Bool :=
  c = ' ' ∨ c = '\n' ∨ c = '\t' ∨ c = '\r'

/-- `tokens.trim()`. -/
def trimChars (cs : List Char) : List Char :=
  ((cs.dropWhile isWs).reverse.dropWhile isWs).reverse

/-- The hook's scan over the partial JSON: tracks whether we are inside
a string, whether the previous character was an escape, and the stack
of expected closing brackets (top at the head). Returns the final
`inString` flag and the pending stack. -/
def completeScan : List Char → Bool → Bool → List Char → Bool × List Char
  | [], inStr, _, stack => (inStr, stack)
  | ch :: rest, inStr, escaped, stack =>
    if escaped then completeScan rest inStr false stack
    else if ch = '\\' then completeScan rest inStr true stack
    else if ch = '"' then completeScan rest (!inStr) false stack
    else if inStr then completeScan rest inStr false stack
    else if ch = '\x7b' then completeScan rest inStr false ('\x7d' :: stack)
    else if ch = '[' then completeScan rest inStr false (']' :: stack)
    else if ch = '\x7d' ∨ ch = ']' then
      match stack with
      | top :: below =>
        if top = ch then completeScan rest inStr false below
        else completeScan rest inStr false stack
      | [] => completeScan rest inStr false stack
    else completeScan rest inStr false stack

/-- The hook's robust completion: close an open string, then append the
pending closers in pop order. -/
def completeJson (cs : List Char) : List Char :=
  let (inStr, stack) := completeScan cs false false []
  (if inStr then cs ++ ['"'] else cs) ++ stack

/-- `lastValidResult` for a given token buffer: trim, require a leading
brace, complete, parse (`jsonParse` models `JSON.parse` wrapped in the
hook's try/catch). -/
def lastValid {V : Type} (jsonParse : List Char → Option V)
    (tokens : List Char) : Option V :=
  let json := trimChars tokens
  match json with
  | [] => none
  | c :: _ => if c = '\x7b' then jsonParse (completeJson json) else none

/-- Events the hook's memos react to within and across requests. -/
inductive HookEvent (V : Type)
  | tokensUpdate (tokens : List Char)
  | finalResult (v : V)
  | newRequest

/-- Evolution of the sticky partial result: a new request clears it, a
`data-result` part becomes it, a token update replaces it only when the
completed prefix parses. The value of `partialResult` after an event is
exactly this state. -/
def stickyStep {V : Type} (jsonParse : List Char → Option V)
    (sticky : Option V) : HookEvent V → Option V
  | .newRequest => none
  | .finalResult v => some v
  | .tokensUpdate ts =>
    match lastValid jsonParse ts with
    | some v => some v
    | none => sticky

/-- The sticky partial result after a sequence of events, starting from
the hook's initial `null`. -/
def runSticky {V : Type} (jsonParse : List Char → Option V)
    (es : List (HookEvent V)) : Option V :=
  es.foldl (stickyStep jsonParse) none

/-! ## Fusion lemmas -/

theorem length_fuseFrom (C b : ℚ) (d s pool : List Nat) :
    (fuseFrom C b d s pool).length = pool.length := by
  unfold fuseFrom
  rw [List.length_insertionSort, List.length_map]

theorem length_fuseAll (C b : ℚ) (d s : List Nat) :
    (fuseAll C b d s).length = (candidates d s).length :=
  length_fuseFrom C b d s (candidates d s)

theorem sorted_fuseFrom (C b : ℚ) (d s pool : List Nat) :
    (fuseFrom C b d s pool).Sorted fuseOrder :=
  List.sorted_insertionSort fuseOrder _

theorem perm_fuseFrom (C b : ℚ) (d s pool : List Nat) :
    (fuseFrom C b d s pool).Perm
      (pool.map fun id => (id, fusedScore C b d s id)) :=
  List.perm_insertionSort fuseOrder _

theorem mem_candidates (d s : List Nat) (id : Nat) :
    id ∈ candidates d s ↔ id ∈ d ∨ id ∈ s := by
  unfold candidates
  rw [List.mem_dedup, List.mem_append]

theorem rankFrom_shift (xs : List Nat) (id : Nat) :
    ∀ r t : Nat, rankFrom xs id (r + t) = (rankFrom xs id r).map (· + t) := by
  induction xs with
  | nil => intro r t; rfl
  | cons x xs ih =>
    intro r t
    by_cases h : x = id
    · simp [rankFrom, h]
    · have := ih (r + 1) t
      simp only [rankFrom, if_neg h]
      rw [← this]
      ring_nf

theorem rankIn_cons_self (x : Nat) (xs : List Nat) :
    rankIn (x :: xs) x = some 1 := by
  simp [rankIn, rankFrom]

theorem rankIn_eq_none_iff (l : List Nat) (id : Nat) :
    rankIn l id = none ↔ id ∉ l := by
  unfold rankIn
  induction l with
  | nil => simp [rankFrom]
  | cons x xs ih =>
    by_cases h : x = id
    · simp [rankFrom, h]
    · have h2 : rankFrom xs id (1 + 1) = (rankFrom xs id 1).map (· + 1) :=
        rankFrom_shift xs id 1 1
      simp only [rankFrom, if_neg h, List.mem_cons]
      rw [h2, Option.map_eq_none', ih]
      simp only [not_or]
      exact ⟨fun h1 => ⟨fun e => h e.symm, h1⟩, fun h1 => h1.2⟩

/-- The 1-based rank of the element at 0-based position `i` of a
duplicate-free ranked list is `i + 1`. -/
theorem rankIn_get (l : List Nat) (hl : l.Nodup) (i : Fin l.length) :
    rankIn l (l.get i) = some (i.1 + 1) := by
  induction l with
  | nil => exact absurd i.2 (by simp)
  | cons x xs ih =>
    rcases i with ⟨i, hi⟩
    cases i with
    | zero => exact rankIn_cons_self x xs
    | succ j =>
      have hj : j < xs.length := Nat.lt_of_succ_lt_succ hi
      have hget : (x :: xs).get ⟨j + 1, hi⟩ = xs.get ⟨j, hj⟩ := rfl
      have hne : x ≠ xs.get ⟨j, hj⟩ := by
        intro he
        exact (List.nodup_cons.mp hl).1 (he ▸ List.get_mem xs j hj)
      have h2 : rankFrom xs (xs.get ⟨j, hj⟩) (1 + 1) =
          (rankFrom xs (xs.get ⟨j, hj⟩) 1).map (· + 1) :=
        rankFrom_shift xs _ 1 1
      have ihx := ih (List.nodup_cons.mp hl).2 ⟨j, hj⟩
      unfold rankIn at ihx ⊢
      rw [hget]
      simp only [rankFrom, if_neg hne]
      rw [h2, ihx]
      rfl

theorem listContrib_of_not_mem (C b : ℚ) (l : List Nat) (id : Nat)
    (h : id ∉ l) : listContrib C b l id = 0 := by
  unfold listContrib
  rw [(rankIn_eq_none_iff l id).mpr h]

theorem listContrib_head (C b : ℚ) (x : Nat) (xs : List Nat) :
    listContrib C b (x :: xs) x = 1 / (C + 1) + b := by
  unfold listContrib
  rw [rankIn_cons_self]
  norm_num

/-! ## C6 / C7 -/

/-- C6: for every retrieval request, the fused precedent list has length
`min k (number of fused candidates)`: at most `k`, and when `k` exceeds
the candidate count all available candidates are returned. -/
theorem fuse_length_min (C b : ℚ) (k : Nat) (d s : List Nat) :
    (fuse C b k d s).length = min k (candidates d s).length ∧
      (fuse C b k d s).length ≤ k := by
  have hmin : (fuse C b k d s).length = min k (candidates d s).length := by
    unfold fuse
    rw [List.length_take, length_fuseAll]
  exact ⟨hmin, hmin ▸ Nat.min_le_left _ _⟩

/-- C7: fusion is a deterministic function of its inputs: the sorted
output is uniquely determined, independent of the order in which the
candidate pool was assembled (in particular, of the join order of the
concurrently issued dense and sparse queries). -/
theorem fuse_deterministic (C b : ℚ) (k : Nat) (d s pool₁ pool₂ : List Nat)
    (hperm : pool₁.Perm pool₂) :
    fuseFrom C b d s pool₁ = fuseFrom C b d s pool₂ ∧
      fuseAll C b d s = fuseFrom C b d s ((s ++ d).dedup) ∧
      fuse C b k d s = (fuseFrom C b d s ((s ++ d).dedup)).take k := by
  have key : ∀ p₁ p₂ : List Nat, p₁.Perm p₂ →
      fuseFrom C b d s p₁ = fuseFrom C b d s p₂ := by
    intro p₁ p₂ hp
    apply List.eq_of_perm_of_sorted _ (sorted_fuseFrom C b d s p₁)
      (sorted_fuseFrom C b d s p₂)
    exact (perm_fuseFrom C b d s p₁).trans
      ((hp.map _).trans (perm_fuseFrom C b d s p₂).symm)
  have hpools : (candidates d s).Perm ((s ++ d).dedup) := by
    unfold candidates
    rw [List.perm_ext_iff_of_nodup (List.nodup_dedup _) (List.nodup_dedup _)]
    intro a
    rw [List.mem_dedup, List.mem_dedup, List.mem_append, List.mem_append]
    exact or_comm
  refine ⟨key pool₁ pool₂ hperm, key _ _ hpools, ?_⟩
  unfold fuse fuseAll
  rw [key _ _ hpools]

theorem fuse_deterministic_witness :
    fuseFrom 60 1 [1, 2] [2, 3] [1, 2, 3] =
      fuseFrom 60 1 [1, 2] [2, 3] [3, 1, 2] :=
  (fuse_deterministic 60 1 3 [1, 2] [2, 3] [1, 2, 3] [3, 1, 2]
    (by decide)).1

/-! ## C1: fusion computes RRF scores, sorts, returns top k -/

/-- C1: for ranked dense/sparse lists (no ties, at most 20 entries) and
parameters C, bonus, k: every fused entry carries the accumulated score
`1/(C+rank)` summed over the lists the submission appears in (0 from a
list it is absent from, plus the top-rank bonus exactly at rank 1); the
fused list is the candidate pool (submissions of either list) sorted by
score descending with ties broken by lower submission id; and the
operation returns its top `k`. -/
theorem fuse_rrf_spec (C b : ℚ) (k : Nat) (d s : List Nat)
    (hd : d.Nodup) (hs : s.Nodup)
    (hd20 : d.length ≤ 20) (hs20 : s.length ≤ 20) :
    (∀ p ∈ fuseAll C b d s, p.2 = fusedScore C b d s p.1) ∧
    (∀ id, fusedScore C b d s id =
      listContrib C b d id + listContrib C b s id) ∧
    (∀ (l : List Nat) (id : Nat) (r : Nat), rankIn l id = some r →
      listContrib C b l id = 1 / (C + (r : ℚ)) + (if r = 1 then b else 0)) ∧
    (∀ (l : List Nat) (id : Nat), id ∉ l → listContrib C b l id = 0) ∧
    (∀ i : Fin d.length, rankIn d (d.get i) = some (i.1 + 1)) ∧
    (∀ i : Fin s.length, rankIn s (s.get i) = some (i.1 + 1)) ∧
    (∀ id, id ∈ candidates d s ↔ id ∈ d ∨ id ∈ s) ∧
    (fuseAll C b d s).Perm
      ((candidates d s).map fun id => (id, fusedScore C b d s id)) ∧
    (fuseAll C b d s).Sorted fuseOrder ∧
    fuse C b k d s = (fuseAll C b d s).take k := by
  refine ⟨?_, fun id => rfl, ?_, ?_, rankIn_get d hd, rankIn_get s hs,
    mem_candidates d s, perm_fuseFrom C b d s _, sorted_fuseFrom C b d s _,
    rfl⟩
  · intro p hp
    have hmem := (perm_fuseFrom C b d s (candidates d s)).mem_iff.mp hp
    rcases List.mem_map.mp hmem with ⟨id, _, hid⟩
    rw [← hid]
  · intro l id r h
    unfold listContrib
    rw [h]
  · intro l id h
    exact listContrib_of_not_mem C b l id h

theorem fuse_rrf_spec_witness :
    ([1, 2] : List Nat).Nodup ∧ ([2, 3] : List Nat).Nodup ∧
      (∀ p ∈ fuseAll 60 1 [1, 2] [2, 3], p.2 = fusedScore 60 1 [1, 2] [2, 3] p.1) ∧
      (fuseAll 60 1 [1, 2] [2, 3]).Sorted fuseOrder :=
  ⟨by decide, by decide,
    (fuse_rrf_spec 60 1 3 [1, 2] [2, 3] (by decide) (by decide)
      (by decide) (by decide)).1,
    (fuse_rrf_spec 60 1 3 [1, 2] [2, 3] (by decide) (by decide)
      (by decide) (by decide)).2.2.2.2.2.2.2.2.1⟩

/-! ## C2: fusion with one empty list degrades to the other list -/

theorem fusedScore_sparse_empty (C b : ℚ) (d : List Nat) (id : Nat) :
    fusedScore C b d [] id = listContrib C b d id := by
  unfold fusedScore
  rw [listContrib_of_not_mem C b [] id (List.not_mem_nil id), add_zero]

theorem fusedScore_dense_empty (C b : ℚ) (s : List Nat) (id : Nat) :
    fusedScore C b [] s id = listContrib C b s id := by
  unfold fusedScore
  rw [listContrib_of_not_mem C b [] id (List.not_mem_nil id), zero_add]

/-- A duplicate-free ranked list, scored against itself, is already in
fused order: scores strictly decrease with rank. -/
theorem sorted_self_scored (C b : ℚ) (hC : 0 ≤ C) (hb : 0 ≤ b)
    (l : List Nat) (hl : l.Nodup) :
    (l.map fun id => (id, listContrib C b l id)).Sorted fuseOrder := by
  rw [List.Sorted, List.pairwise_iff_getElem]
  intro i j hi hj hij
  rw [List.length_map] at hi hj
  rw [List.getElem_map, List.getElem_map]
  have hri : rankIn l l[i] = some (i + 1) := rankIn_get l hl ⟨i, hi⟩
  have hrj : rankIn l l[j] = some (j + 1) := rankIn_get l hl ⟨j, hj⟩
  have hsi : listContrib C b l l[i] =
      1 / (C + ((i : ℚ) + 1)) + (if i + 1 = 1 then b else 0) := by
    unfold listContrib
    rw [hri]
    push_cast
    ring_nf
  have hsj : listContrib C b l l[j] =
      1 / (C + ((j : ℚ) + 1)) + (if j + 1 = 1 then b else 0) := by
    unfold listContrib
    rw [hrj]
    push_cast
    ring_nf
  left
  rw [hsi, hsj]
  have hj1 : ¬(j + 1 = 1) := by omega
  rw [if_neg hj1, add_zero]
  have hfrac : 1 / (C + ((j : ℚ) + 1)) < 1 / (C + ((i : ℚ) + 1)) := by
    apply one_div_lt_one_div_of_lt
    · positivity
    · have : (i : ℚ) < (j : ℚ) := by exact_mod_cast hij
      linarith
  rcases Nat.eq_zero_or_pos i with hi0 | hipos
  · subst hi0
    rw [if_pos rfl]
    linarith
  · rw [if_neg (by omega), add_zero]
    exact hfrac

/-- C2: when the sparse list is empty, fusion raises no error and its
output order equals the dense order exactly (scores are the dense
contributions, so the top-rank bonus still applies to dense rank 1);
symmetrically when the dense list is empty the sparse ranking alone is
returned. -/
theorem fuse_one_empty (C b : ℚ) (k : Nat) (d s : List Nat)
    (hC : 0 ≤ C) (hb : 0 ≤ b) (hd : d.Nodup) (hs : s.Nodup) :
    fuseAll C b d [] = d.map (fun id => (id, listContrib C b d id)) ∧
    (fuse C b k d []).map Prod.fst = d.take k ∧
    (∀ x xs, d = x :: xs →
      (fuseAll C b d []).head? = some (x, 1 / (C + 1) + b)) ∧
    fuseAll C b [] s = s.map (fun id => (id, listContrib C b s id)) ∧
    (fuse C b k [] s).map Prod.fst = s.take k := by
  have hcd : candidates d [] = d := by
    unfold candidates
    rw [List.append_nil]
    exact List.dedup_eq_self.mpr hd
  have hcs : candidates [] s = s := by
    unfold candidates
    rw [List.nil_append]
    exact List.dedup_eq_self.mpr hs
  have hmapd : (candidates d []).map (fun id => (id, fusedScore C b d [] id)) =
      d.map (fun id => (id, listContrib C b d id)) := by
    rw [hcd]
    exact List.map_congr_left fun id _ => by rw [fusedScore_sparse_empty]
  have hmaps : (candidates [] s).map (fun id => (id, fusedScore C b [] s id)) =
      s.map (fun id => (id, listContrib C b s id)) := by
    rw [hcs]
    exact List.map_congr_left fun id _ => by rw [fusedScore_dense_empty]
  have halld : fuseAll C b d [] = d.map (fun id => (id, listContrib C b d id)) := by
    unfold fuseAll fuseFrom
    rw [hmapd]
    exact (sorted_self_scored C b hC hb d hd).insertionSort_eq
  have halls : fuseAll C b [] s = s.map (fun id => (id, listContrib C b s id)) := by
    unfold fuseAll fuseFrom
    rw [hmaps]
    exact (sorted_self_scored C b hC hb s hs).insertionSort_eq
  refine ⟨halld, ?_, ?_, halls, ?_⟩
  · unfold fuse
    rw [halld, ← List.map_take, List.map_map]
    show List.map (fun id => id) (List.take k d) = List.take k d
    simp
  · intro x xs hx
    subst hx
    rw [halld]
    simp [listContrib_head]
  · unfold fuse
    rw [halls, ← List.map_take, List.map_map]
    show List.map (fun id => id) (List.take k s) = List.take k s
    simp

/-! ## C3: double rank-1 dominates single rank-1 -/

/-- C3: with C ≥ 0 and bonus ≥ 0, a submission at rank 1 of both lists
gets a strictly greater fused score than a submission at rank 1 of
exactly one list and absent from the other; and in any fused output a
strictly greater fused score means a strictly earlier position. -/
theorem rank1_both_dominates (C b : ℚ) (hC : 0 ≤ C) (hb : 0 ≤ b)
    (d s d' s' : List Nat) (a e : Nat)
    (hda : d.head? = some a) (hsa : s.head? = some a)
    (he : (d'.head? = some e ∧ e ∉ s') ∨ (s'.head? = some e ∧ e ∉ d')) :
    fusedScore C b d' s' e < fusedScore C b d s a ∧
    (∀ (dl sl : List Nat) (i j : Fin (fuseAll C b dl sl).length),
      ((fuseAll C b dl sl).get i).2 < ((fuseAll C b dl sl).get j).2 →
      j < i) := by
  have hpos : (0 : ℚ) < 1 / (C + 1) + b := by positivity
  have hhead : ∀ (l : List Nat) (x : Nat), l.head? = some x →
      listContrib C b l x = 1 / (C + 1) + b := by
    intro l x hl
    cases l with
    | nil => simp at hl
    | cons y ys =>
      rw [List.head?_cons, Option.some_inj] at hl
      subst hl
      exact listContrib_head C b y ys
  constructor
  · have ha : fusedScore C b d s a = (1 / (C + 1) + b) + (1 / (C + 1) + b) := by
      unfold fusedScore
      rw [hhead d a hda, hhead s a hsa]
    rcases he with ⟨hh, habs⟩ | ⟨hh, habs⟩
    · have : fusedScore C b d' s' e = (1 / (C + 1) + b) + 0 := by
        unfold fusedScore
        rw [hhead d' e hh, listContrib_of_not_mem C b s' e habs]
      rw [this, ha]
      linarith
    · have : fusedScore C b d' s' e = 0 + (1 / (C + 1) + b) := by
        unfold fusedScore
        rw [hhead s' e hh, listContrib_of_not_mem C b d' e habs]
      rw [this, ha]
      linarith
  · intro dl sl i j hlt
    by_contra hji
    push_neg at hji
    have hsorted : (fuseAll C b dl sl).Sorted fuseOrder :=
      sorted_fuseFrom C b dl sl (candidates dl sl)
    rcases lt_or_eq_of_le hji with hij | hij
    · have hs := hsorted.rel_get_of_lt hij
      unfold fuseOrder at hs
      rcases hs with h1 | ⟨h1, _⟩
      · exact absurd (h1.trans hlt) (lt_irrefl _)
      · rw [h1] at hlt
        exact absurd hlt (lt_irrefl _)
    · rw [hij] at hlt
      exact absurd hlt (lt_irrefl _)

theorem rank1_both_dominates_witness :
    (0 : ℚ) ≤ 60 ∧ (0 : ℚ) ≤ 1 ∧
      fusedScore 60 1 [7, 2] [9] 7 < fusedScore 60 1 [4, 7] [4, 9] 4 :=
  ⟨by norm_num, by norm_num,
    (rank1_both_dominates 60 1 (by norm_num) (by norm_num)
      [4, 7] [4, 9] [7, 2] [9] 4 7 (by decide) (by decide)
      (Or.inl ⟨by decide, by decide⟩)).1⟩

theorem fuse_one_empty_witness :
    (0 : ℚ) ≤ 60 ∧ (0 : ℚ) ≤ 1 ∧ ([5, 3, 8] : List Nat).Nodup ∧
      (fuse 60 1 2 [5, 3, 8] []).map Prod.fst = [5, 3] :=
  ⟨by norm_num, by norm_num, by decide, by
    have h := (fuse_one_empty 60 1 2 [5, 3, 8] [] (by norm_num) (by norm_num)
      (by decide) (by decide)).2.1
    simpa using h⟩

/-! ## C4: labeler disagreement resolution -/

/-- `find?` returns the unique element satisfying the predicate. -/
theorem find_eq_some_of_unique {α : Type} (l : List α) (p : α → Bool) (v : α)
    (hv : v ∈ l) (hpv : p v = true) (huniq : ∀ w ∈ l, p w = true → w = v) :
    l.find? p = some v := by
  induction l with
  | nil => simp at hv
  | cons a l ih =>
    by_cases ha : p a = true
    · rw [List.find?_cons_of_pos _ ha, huniq a (List.mem_cons_self a l) ha]
    · rw [List.find?_cons_of_neg _ (by simpa using ha)]
      apply ih
      · rcases List.mem_cons.mp hv with rfl | h
        · exact absurd hpv ha
        · exact h
      · exact fun w hw hpw => huniq w (List.mem_cons_of_mem a hw) hpw

/-- C4: when the retained comments yield at least two distinct labels,
the label whose agreeing comments have the strictly higher aggregate
score wins; an exact tie of the maximal aggregates leaves the
submission unlabeled. Concretely, YTA(10) vs NTA(10) stays unlabeled
and YTA(15)+YTA(5) vs NTA(10) resolves to YTA. -/
theorem labeler_resolution (votes : List LabelVote) (v w : VerdictLabel)
    (hvw : v ≠ w)
    (hvvote : ∃ c ∈ votes, c.label = some v)
    (hwvote : ∃ c ∈ votes, c.label = some w) :
    ((∀ u ∈ allLabels, (∃ c ∈ votes, c.label = some u) → u ≠ v →
        aggScore votes u < aggScore votes v) →
      resolveLabel votes = some v) ∧
    (aggScore votes v = aggScore votes w →
      (∀ u ∈ allLabels, aggScore votes u ≤ aggScore votes v) →
      resolveLabel votes = none) ∧
    resolveLabel [⟨some .YTA, 10⟩, ⟨some .NTA, 10⟩] = none ∧
    resolveLabel [⟨some .YTA, 15⟩, ⟨some .YTA, 5⟩, ⟨some .NTA, 10⟩] =
      some .YTA := by
  refine ⟨?_, ?_, by decide, by decide⟩
  · intro hdom
    unfold resolveLabel
    apply find_eq_some_of_unique allLabels _ v (mem_allLabels v)
    · rw [decide_eq_true_eq]
      exact ⟨hvvote, hdom⟩
    · intro u _ hpu
      rw [decide_eq_true_eq] at hpu
      by_contra hne
      have h1 := hpu.2 v (mem_allLabels v) hvvote (fun he => hne he.symm)
      have h2 := hdom u (mem_allLabels u) hpu.1 hne
      exact absurd (h1.trans h2) (lt_irrefl _)
  · intro htie hmax
    unfold resolveLabel
    rw [List.find?_eq_none]
    intro u _ hpu
    rw [decide_eq_true_eq] at hpu
    by_cases huv : u = v
    · subst huv
      have := hpu.2 w (mem_allLabels w) hwvote (fun he => hvw he.symm)
      rw [htie] at this
      exact absurd this (lt_irrefl _)
    · by_cases huw : u = w
      · subst huw
        have := hpu.2 v (mem_allLabels v) hvvote (fun he => huv he.symm)
        rw [htie] at this
        exact absurd this (lt_irrefl _)
      · have h1 := hpu.2 v (mem_allLabels v) hvvote (fun he => huv he.symm)
        have h2 := hmax u (mem_allLabels u)
        exact absurd (h2.trans_lt h1) (lt_irrefl _)

theorem labeler_resolution_witness :
    resolveLabel [⟨some .YTA, 15⟩, ⟨some .YTA, 5⟩, ⟨some .NTA, 10⟩] =
        some .YTA ∧
      resolveLabel [⟨some .YTA, 10⟩, ⟨some .NTA, 10⟩] = none :=
  ⟨(labeler_resolution [⟨some .YTA, 15⟩, ⟨some .YTA, 5⟩, ⟨some .NTA, 10⟩]
      .YTA .NTA (by decide) (by decide) (by decide)).1 (by decide),
    (labeler_resolution [⟨some .YTA, 10⟩, ⟨some .NTA, 10⟩]
      .YTA .NTA (by decide) (by decide) (by decide)).2.1
      (by decide) (by decide)⟩

/-! ## C5: ingestor retention lemmas -/

/-- `c` is at least as good as `d` in retention priority. -/
def pge (c d : RComment) : Prop :=
  prio c d ∨ (c.score = d.score ∧ c.arrival = d.arrival)

theorem pge_refl (c : RComment) : pge c c := Or.inr ⟨rfl, rfl⟩

theorem prio_trans {a b c : RComment} (h1 : prio a b) (h2 : prio b c) :
    prio a c := by
  unfold prio at *
  rcases h1 with h1 | ⟨h1, h1'⟩ <;> rcases h2 with h2 | ⟨h2, h2'⟩
  · exact Or.inl (h2.trans h1)
  · exact Or.inl (h2 ▸ h1)
  · exact Or.inl (h1 ▸ h2)
  · exact Or.inr ⟨h1.trans h2, h1'.trans h2'⟩

theorem pge_trans {a b c : RComment} (h1 : pge a b) (h2 : pge b c) :
    pge a c := by
  rcases h1 with h1 | ⟨h1, h1'⟩
  · rcases h2 with h2 | ⟨h2, h2'⟩
    · exact Or.inl (prio_trans h1 h2)
    · have hbc : b = c := by
        cases b; cases c; simp_all
      exact Or.inl (hbc ▸ h1)
  · have hab : a = b := by
      cases a; cases b; simp_all
    exact hab ▸ h2

/-- A `pge` link is a strict `prio` link or equality of comments. -/
theorem pge_cases {c d : RComment} (h : pge c d) : prio c d ∨ c = d := by
  rcases h with h | ⟨h1, h2⟩
  · exact Or.inl h
  · right
    cases c; cases d
    simp_all

theorem pge_of_not_prio {c d : RComment} (h : ¬ prio c d) : pge d c := by
  unfold prio pge at *
  rcases lt_trichotomy c.score d.score with hs | hs | hs
  · exact Or.inl (Or.inl hs)
  · rcases lt_trichotomy d.arrival c.arrival with ha | ha | ha
    · exact Or.inl (Or.inr ⟨hs.symm, ha⟩)
    · exact Or.inr ⟨hs.symm, ha⟩
    · exact absurd (Or.inr ⟨hs, ha⟩) h
  · exact absurd (Or.inl hs) h

theorem worse_eq_or (c d : RComment) : worse c d = c ∨ worse c d = d := by
  unfold worse
  split_ifs <;> simp

theorem pge_worse_left (c d : RComment) : pge c (worse c d) := by
  unfold worse
  split_ifs with h
  · exact Or.inl h
  · exact pge_refl c

theorem pge_worse_right (c d : RComment) : pge d (worse c d) := by
  unfold worse
  split_ifs with h
  · exact pge_refl d
  · exact pge_of_not_prio h

theorem worstOf_mem (c : RComment) (S : List RComment) :
    worstOf c S = c ∨ worstOf c S ∈ S := by
  induction S generalizing c with
  | nil => exact Or.inl rfl
  | cons s S ih =>
    unfold worstOf at *
    rw [List.foldl_cons]
    rcases ih (worse c s) with h | h
    · rcases worse_eq_or c s with h2 | h2
      · exact Or.inl (h.trans h2)
      · exact Or.inr (by rw [h, h2]; exact List.mem_cons_self s S)
    · exact Or.inr (List.mem_cons_of_mem s h)

/-- Every element of `c :: S` is at least as good as the worst one. -/
theorem pge_worstOf (c : RComment) (S : List RComment) :
    ∀ d ∈ c :: S, pge d (worstOf c S) := by
  induction S generalizing c with
  | nil =>
    intro d hd
    rw [List.mem_singleton.mp hd]
    exact pge_refl c
  | cons s S ih =>
    intro d hd
    unfold worstOf at *
    rw [List.foldl_cons]
    have hw : pge (worse c s) (List.foldl worse (worse c s) S) :=
      ih (worse c s) (worse c s) (List.mem_cons_self _ S)
    rcases List.mem_cons.mp hd with rfl | hd2
    · exact pge_trans (pge_worse_left d s) hw
    · rcases List.mem_cons.mp hd2 with rfl | hd3
      · exact pge_trans (pge_worse_right c d) hw
      · exact ih (worse c s) d (List.mem_cons_of_mem _ hd3)

/-- The worst retained comment has the minimum score. -/
theorem worstOf_score_le (c : RComment) (S : List RComment) (d : RComment)
    (hd : d ∈ c :: S) : (worstOf c S).score ≤ d.score := by
  rcases pge_worstOf c S d hd with h | h
  · rcases h with h | ⟨h, _⟩
    · exact le_of_lt h
    · exact le_of_eq h.symm
  · exact le_of_eq h.1.symm

/-- The retention invariant: `S` is exactly the (up to) 3 best comments
of the processed stream `P`, best meaning highest score with ties broken
by earliest arrival. -/
def TopSel (P S : List RComment) : Prop :=
  S ⊆ P ∧ S.Nodup ∧ S.length = min 3 P.length ∧
    ∀ x ∈ P, x ∉ S → ∀ d ∈ S, prio d x

theorem retainStep_topSel {P S : List RComment} (c : RComment)
    (h : TopSel P S) (hfresh : ∀ p ∈ P, p.arrival < c.arrival) :
    TopSel (P ++ [c]) (retainStep S c) := by
  obtain ⟨hsub, hnd, hlen, hexcl⟩ := h
  have hcP : c ∉ P := fun hc => lt_irrefl _ (hfresh c hc)
  have hcS : c ∉ S := fun hc => hcP (hsub hc)
  match hS : S with
  | [] =>
    have hP0 : P.length = 0 := by
      simp at hlen
      omega
    have hPnil : P = [] := List.length_eq_zero.mp hP0
    subst hPnil
    refine ⟨by simp [retainStep], by simp [retainStep], by simp [retainStep], ?_⟩
    intro x hx hnx
    simp only [List.nil_append, retainStep] at hx hnx ⊢
    exact absurd hx hnx
  | s :: rest =>
    by_cases hlt : (s :: rest).length < 3
    · have hPS : P.length = (s :: rest).length := by
        rw [hlen] at hlt ⊢
        omega
      have hperm : (s :: rest).Perm P :=
        (List.subperm_of_subset hnd hsub).perm_of_length_le (le_of_eq hPS)
      rw [retainStep_cons_lt c hlt]
      refine ⟨?_, ?_, ?_, ?_⟩
      · intro x hx
        rcases List.mem_append.mp hx with hx | hx
        · exact List.mem_append.mpr (Or.inl (hsub hx))
        · exact List.mem_append.mpr (Or.inr hx)
      · rw [List.nodup_append]
        exact ⟨hnd, List.nodup_singleton c, fun a ha hb => by
          rw [List.mem_singleton.mp hb] at ha
          exact hcS ha⟩
      · rw [List.length_append, List.length_append, hPS]
        simp only [List.length_singleton]
        omega
      · intro x hx hnx
        exfalso
        rcases List.mem_append.mp hx with hx | hx
        · exact hnx (List.mem_append.mpr (Or.inl (hperm.mem_iff.mpr hx)))
        · exact hnx (List.mem_append.mpr (Or.inr hx))
    · have hlen3 : (s :: rest).length = 3 := by
        rw [hlen] at hlt ⊢
        omega
      have hP3 : 3 ≤ P.length := by
        rw [hlen3] at hlen
        omega
      have hmS : worstOf s rest ∈ s :: rest := by
        rcases worstOf_mem s rest with h | h
        · rw [h]; exact List.mem_cons_self s rest
        · exact List.mem_cons_of_mem s h
      by_cases hrep : (worstOf s rest).score < c.score
      · rw [retainStep_cons_ge c hlt, if_pos hrep]
        have herasesub : (s :: rest).erase (worstOf s rest) ⊆ s :: rest :=
          List.erase_subset _ _
        refine ⟨?_, ?_, ?_, ?_⟩
        · intro x hx
          rcases List.mem_append.mp hx with hx | hx
          · exact List.mem_append.mpr (Or.inl (hsub (herasesub hx)))
          · exact List.mem_append.mpr (Or.inr hx)
        · rw [List.nodup_append]
          exact ⟨hnd.erase _, List.nodup_singleton c, fun a ha hb => by
            rw [List.mem_singleton.mp hb] at ha
            exact hcS (herasesub ha)⟩
        · rw [List.length_append, List.length_erase_of_mem hmS, hlen3]
          simp only [List.length_singleton, List.length_append]
          omega
        · intro x hx hnx d hd
          have hdcases := List.mem_append.mp hd
          rcases List.mem_append.mp hx with hx | hx
          · by_cases hxS : x ∈ s :: rest
            · have hxm : x = worstOf s rest := by
                by_contra hxm
                exact hnx (List.mem_append.mpr
                  (Or.inl (hnd.mem_erase_iff.mpr ⟨hxm, hxS⟩)))
              subst hxm
              rcases hdcases with hd1 | hd1
              · have hdS := herasesub hd1
                have hdne : d ≠ worstOf s rest :=
                  (hnd.mem_erase_iff.mp hd1).1
                rcases pge_cases (pge_worstOf s rest d hdS) with hp | he
                · exact hp
                · exact absurd he hdne
              · rw [List.mem_singleton.mp hd1]
                exact Or.inl hrep
            · have hold := hexcl x hx hxS
              rcases hdcases with hd1 | hd1
              · exact hold d (herasesub hd1)
              · rw [List.mem_singleton.mp hd1]
                exact prio_trans (Or.inl hrep) (hold _ hmS)
          · exfalso
            exact hnx (List.mem_append.mpr (Or.inr hx))
      · rw [retainStep_cons_ge c hlt, if_neg hrep]
        refine ⟨fun x hx => List.mem_append.mpr (Or.inl (hsub hx)), hnd, ?_, ?_⟩
        · rw [List.length_append, hlen3]
          simp only [List.length_singleton]
          omega
        · intro x hx hnx d hd
          rcases List.mem_append.mp hx with hx | hx
          · exact hexcl x hx hnx d hd
          · rw [List.mem_singleton.mp hx]
            have hscore : c.score ≤ d.score :=
              le_trans (not_lt.mp hrep) (worstOf_score_le s rest d hd)
            rcases lt_or_eq_of_le hscore with hs2 | hs2
            · exact Or.inl hs2
            · exact Or.inr ⟨hs2.symm, hfresh d (hsub hd)⟩

/-- Folding the retention step over a fresh stream preserves the
invariant. -/
theorem retain_topSel : ∀ (cs P S : List RComment), TopSel P S →
    (∀ p ∈ P, ∀ x ∈ cs, p.arrival < x.arrival) →
    cs.Pairwise (fun a b => a.arrival < b.arrival) →
    TopSel (P ++ cs) (cs.foldl retainStep S) := by
  intro cs
  induction cs with
  | nil =>
    intro P S h _ _
    simpa using h
  | cons c cs ih =>
    intro P S h hfresh hpw
    have hstep := retainStep_topSel c h
      (fun p hp => hfresh p hp c (List.mem_cons_self c cs))
    have hfresh' : ∀ p ∈ P ++ [c], ∀ x ∈ cs, p.arrival < x.arrival := by
      intro p hp x hx
      rcases List.mem_append.mp hp with hp | hp
      · exact hfresh p hp x (List.mem_cons_of_mem c hx)
      · rw [List.mem_singleton.mp hp]
        exact (List.pairwise_cons.mp hpw).1 x hx
    have hres := ih (P ++ [c]) (retainStep S c) hstep hfresh'
      (List.pairwise_cons.mp hpw).2
    rw [List.foldl_cons]
    have : P ++ [c] ++ cs = P ++ c :: cs := by
      rw [List.append_assoc, List.singleton_append]
    rwa [this] at hres

/-- C5: for a stream of comments in arrival order, the retained set is
always at most 3 (at every intermediate prefix); with 3 comments
retained, a candidate whose score does not strictly exceed the retained
minimum changes nothing; the final retained set is exactly the top-3 by
score with ties broken by earliest arrival; and for scores
[3, 9, 1, 7, 5] the retained scores are exactly 9, 7, 5. -/
theorem ingestor_top3 (cs : List RComment)
    (hpw : cs.Pairwise (fun a b => a.arrival < b.arrival)) :
    TopSel cs (retain cs) ∧
    (retain cs).length = min 3 cs.length ∧
    (∀ p q : List RComment, cs = p ++ q → (retain p).length ≤ 3) ∧
    (∀ (S : List RComment) (c s : RComment) (rest : List RComment),
      S = s :: rest → ¬ S.length < 3 →
      ((worstOf s rest).score < c.score →
        retainStep S c = S.erase (worstOf s rest) ++ [c]) ∧
      (¬ (worstOf s rest).score < c.score → retainStep S c = S)) ∧
    (retain [⟨0, 3⟩, ⟨1, 9⟩, ⟨2, 1⟩, ⟨3, 7⟩, ⟨4, 5⟩]).map RComment.score =
      [9, 7, 5] := by
  have hnil : TopSel [] [] :=
    ⟨List.Subset.refl [], List.nodup_nil, by simp, by simp⟩
  have hmain : TopSel cs (retain cs) := by
    have := retain_topSel cs [] [] hnil (by simp) hpw
    simpa [retain] using this
  refine ⟨hmain, hmain.2.2.1, ?_, ?_, by decide⟩
  · intro p q hpq
    have hppw : p.Pairwise (fun a b => a.arrival < b.arrival) := by
      subst hpq
      exact (List.pairwise_append.mp hpw).1
    have hps : TopSel p (retain p) := by
      have := retain_topSel p [] [] hnil (by simp) hppw
      simpa [retain] using this
    rw [hps.2.2.1]
    omega
  · intro S c s rest hSr hlt
    subst hSr
    constructor
    · intro hrep
      rw [retainStep_cons_ge c hlt, if_pos hrep]
    · intro hrep
      rw [retainStep_cons_ge c hlt, if_neg hrep]

theorem ingestor_top3_witness :
    (retain [⟨0, 3⟩, ⟨1, 9⟩, ⟨2, 1⟩, ⟨3, 7⟩, ⟨4, 5⟩]).map RComment.score =
        [9, 7, 5] ∧
      (retain [⟨0, 3⟩, ⟨1, 9⟩, ⟨2, 1⟩, ⟨3, 7⟩, ⟨4, 5⟩]).length =
        min 3 ([⟨0, 3⟩, ⟨1, 9⟩, ⟨2, 1⟩, ⟨3, 7⟩, ⟨4, 5⟩] :
          List RComment).length :=
  ⟨(ingestor_top3 [⟨0, 3⟩, ⟨1, 9⟩, ⟨2, 1⟩, ⟨3, 7⟩, ⟨4, 5⟩]
      (by decide)).2.2.2.2,
    (ingestor_top3 [⟨0, 3⟩, ⟨1, 9⟩, ⟨2, 1⟩, ⟨3, 7⟩, ⟨4, 5⟩]
      (by decide)).2.1⟩

/-! ## C8: precedent enrichment in the adjudicate route -/

theorem dbMapGet_congr_none (ps : List Retrieved) (key : String)
    (acc : Option Retrieved) (h : ∀ q ∈ ps, q.id ≠ key) :
    ps.foldl (fun acc p => if p.id = key then some p else acc) acc = acc := by
  induction ps generalizing acc with
  | nil => rfl
  | cons q ps ih =>
    simp only [List.foldl_cons]
    rw [if_neg (h q (List.mem_cons_self q ps))]
    exact ih acc fun q' hq' => h q' (List.mem_cons_of_mem q hq')

/-- When retrieved ids are unique, the `Map` lookup finds the matching
precedent. -/
theorem dbMapGet_eq_some {ps : List Retrieved} {p : Retrieved} {key : String}
    (hnd : (ps.map Retrieved.id).Nodup) (hp : p ∈ ps) (hkey : p.id = key) :
    dbMapGet ps key = some p := by
  induction ps with
  | nil => simp at hp
  | cons q ps ih =>
    unfold dbMapGet
    simp only [List.foldl_cons]
    rw [List.map_cons, List.nodup_cons] at hnd
    by_cases hq : q.id = key
    · rw [if_pos hq]
      have hpq : p = q := by
        rcases List.mem_cons.mp hp with h | h
        · exact h
        · exfalso
          apply hnd.1
          rw [hq, ← hkey]
          exact List.mem_map.mpr ⟨p, h, rfl⟩
      rw [dbMapGet_congr_none ps key (some q) fun r hr hrk => hnd.1 (by
        rw [hq, ← hrk]
        exact List.mem_map.mpr ⟨r, hr, rfl⟩), hpq]
    · rw [if_neg hq]
      have hpmem : p ∈ ps := by
        rcases List.mem_cons.mp hp with h | h
        · exact absurd (h ▸ hkey) hq
        · exact h
      exact ih hnd.2 hpmem

/-- C8: a judge citation whose `case_id` matches a retrieved precedent's
id is enriched with the full retrieved submission data (id, title, text,
verdict, retained comments) merged with the citation's own fields; a
citation matching no retrieved id passes through unchanged (no
submission data attached); and the route enriches every citation of the
final object this way. -/
theorem enrichment_spec (ps : List Retrieved) (cite : Cite) (p : Retrieved)
    (hnd : (ps.map Retrieved.id).Nodup) (hp : p ∈ ps)
    (hkey : p.id = cite.case_id) :
    enrichOne ps cite =
      ⟨some p.id, some p.title, some p.text, some p.verdict, some p.comments,
        cite.case_id, cite.case_name, cite.comparison⟩ ∧
    (∀ (ps' : List Retrieved) (cite' : Cite),
      (∀ q ∈ ps', q.id ≠ cite'.case_id) →
      enrichOne ps' cite' =
        ⟨none, none, none, none, none,
          cite'.case_id, cite'.case_name, cite'.comparison⟩) ∧
    (∀ cites : List Cite,
      enrichPrecedents ps cites = cites.map (enrichOne ps)) ∧
    (∀ cites : List Cite, cite ∈ cites →
      enrichOne ps cite ∈ enrichPrecedents ps cites) := by
  refine ⟨?_, ?_, fun cites => rfl, fun cites hc => List.mem_map.mpr ⟨cite, hc, rfl⟩⟩
  · unfold enrichOne
    rw [dbMapGet_eq_some hnd hp hkey]
  · intro ps' cite' hnone
    unfold enrichOne
    rw [show dbMapGet ps' cite'.case_id = none from
      dbMapGet_congr_none ps' cite'.case_id none hnone]

theorem enrichment_spec_witness :
    enrichOne [⟨"s1", "t1", "x1", "NTA", []⟩] ⟨"s1", "n1", "c1"⟩ =
        ⟨some "s1", some "t1", some "x1", some "NTA", some [],
          "s1", "n1", "c1"⟩ ∧
      enrichOne [⟨"s1", "t1", "x1", "NTA", []⟩] ⟨"zz", "n2", "c2"⟩ =
        ⟨none, none, none, none, none, "zz", "n2", "c2"⟩ :=
  ⟨(enrichment_spec [⟨"s1", "t1", "x1", "NTA", []⟩] ⟨"s1", "n1", "c1"⟩
      ⟨"s1", "t1", "x1", "NTA", []⟩ (by decide) (by decide) (by decide)).1,
    (enrichment_spec [⟨"s1", "t1", "x1", "NTA", []⟩] ⟨"s1", "n1", "c1"⟩
      ⟨"s1", "t1", "x1", "NTA", []⟩ (by decide) (by decide) (by decide)).2.1
      [⟨"s1", "t1", "x1", "NTA", []⟩] ⟨"zz", "n2", "c2"⟩ (by decide)⟩

/-! ## C9: the in-memory rate limiter -/

theorem rlCheck_reject {st : RLState} {ip : String} {now : Nat}
    {en : LimitEntry} (h : st ip = some en) (hc : RATE_LIMIT ≤ en.count)
    (hw : ¬ WINDOW_MS < now - en.lastReset) :
    rlCheck st ip now = (false, st) := by
  unfold rlCheck
  rw [h]
  simp only [Option.getD_some]
  rw [if_neg hw, if_pos hc]

theorem rlCheck_accept {st : RLState} {ip : String} {now : Nat}
    {en : LimitEntry} (h : st ip = some en) (hc : ¬ RATE_LIMIT ≤ en.count)
    (hw : ¬ WINDOW_MS < now - en.lastReset) :
    rlCheck st ip now = (true,
      fun k => if k = ip then some ⟨en.count + 1, en.lastReset⟩ else st k) := by
  unfold rlCheck
  rw [h]
  simp only [Option.getD_some]
  rw [if_neg hw, if_neg hc]

theorem rlCheck_reset {st : RLState} {ip : String} {now : Nat}
    {en : LimitEntry} (h : st ip = some en)
    (hw : WINDOW_MS < now - en.lastReset) :
    rlCheck st ip now = (true,
      fun k => if k = ip then some ⟨1, now⟩ else st k) := by
  unfold rlCheck
  rw [h]
  simp only [Option.getD_some]
  rw [if_pos hw]
  norm_num [RATE_LIMIT]

theorem rlCheck_fresh {st : RLState} {ip : String} {now : Nat}
    (h : st ip = none) :
    rlCheck st ip now = (true,
      fun k => if k = ip then some ⟨1, now⟩ else st k) := by
  unfold rlCheck
  rw [h]
  simp only [Option.getD_none]
  norm_num [RATE_LIMIT, WINDOW_MS]

theorem routeStep_of_rlCheck_true {st : RLState} {r : RLRequest}
    {st' : RLState}
    (h : rlCheck st (clientKey r.xff) r.time = (true, st')) :
    routeStep st r = (.proceed, st') := by
  unfold routeStep
  rw [h]
  rfl

theorem routeStep_of_rlCheck_false {st : RLState} {r : RLRequest}
    {st' : RLState}
    (h : rlCheck st (clientKey r.xff) r.time = (false, st')) :
    routeStep st r = (.rateLimited, st') := by
  unfold routeStep
  rw [h]
  rfl

theorem acceptedCount_cons (st : RLState) (r : RLRequest)
    (rs : List RLRequest) (c : String) :
    acceptedCount st (r :: rs) c =
      (if clientKey r.xff = c ∧ (routeStep st r).1 = .proceed then 1 else 0) +
        acceptedCount (routeStep st r).2 rs c := rfl

theorem acceptedCount_cons_step {st : RLState} {r : RLRequest}
    {o : RouteOutcome} {st' : RLState} (hstep : routeStep st r = (o, st'))
    (rs : List RLRequest) (c : String) :
    acceptedCount st (r :: rs) c =
      (if clientKey r.xff = c ∧ o = .proceed then 1 else 0) +
        acceptedCount st' rs c := by
  rw [acceptedCount_cons, hstep]

/-- Requests from other clients leave a client's entry unchanged. -/
theorem routeStep_other_key {st : RLState} {r : RLRequest} {c : String}
    (h : clientKey r.xff ≠ c) : (routeStep st r).2 c = st c := by
  cases hek : st (clientKey r.xff) with
  | none =>
    rw [routeStep_of_rlCheck_true (rlCheck_fresh hek)]
    show (if c = clientKey r.xff
      then some (⟨1, r.time⟩ : LimitEntry) else st c) = st c
    rw [if_neg fun he => h he.symm]
  | some en =>
    by_cases hw : WINDOW_MS < r.time - en.lastReset
    · rw [routeStep_of_rlCheck_true (rlCheck_reset hek hw)]
      show (if c = clientKey r.xff
        then some (⟨1, r.time⟩ : LimitEntry) else st c) = st c
      rw [if_neg fun he => h he.symm]
    · by_cases hc : RATE_LIMIT ≤ en.count
      · rw [routeStep_of_rlCheck_false (rlCheck_reject hek hc hw)]
      · rw [routeStep_of_rlCheck_true (rlCheck_accept hek hc hw)]
        show (if c = clientKey r.xff
          then some (⟨en.count + 1, en.lastReset⟩ : LimitEntry) else st c) =
            st c
        rw [if_neg fun he => h he.symm]

/-- Within one window, a client whose counter stands at `k` gets at most
`RATE_LIMIT - k` further requests accepted. -/
theorem acceptedCount_window_bound :
    ∀ (rs : List RLRequest) (st : RLState) (c : String) (k t1 : Nat),
      st c = some ⟨k, t1⟩ →
      (∀ r ∈ rs, clientKey r.xff = c → r.time - t1 ≤ WINDOW_MS) →
      acceptedCount st rs c ≤ RATE_LIMIT - k := by
  intro rs
  induction rs with
  | nil => intro st c k t1 _ _; exact Nat.zero_le _
  | cons r rs ih =>
    intro st c k t1 h hw
    by_cases hkey : clientKey r.xff = c
    · have h' : st (clientKey r.xff) = some ⟨k, t1⟩ := by rw [hkey]; exact h
      have hnw : ¬ WINDOW_MS < r.time - (⟨k, t1⟩ : LimitEntry).lastReset := by
        have h1 := hw r (List.mem_cons_self r rs) hkey
        show ¬ WINDOW_MS < r.time - t1
        omega
      by_cases hcnt : RATE_LIMIT ≤ (⟨k, t1⟩ : LimitEntry).count
      · have hstep : routeStep st r = (.rateLimited, st) :=
          routeStep_of_rlCheck_false (rlCheck_reject h' hcnt hnw)
        rw [acceptedCount_cons_step hstep rs c,
          if_neg fun hand => nomatch hand.2]
        have hrec := ih st c k t1 h
          fun q hq hqc => hw q (List.mem_cons_of_mem r hq) hqc
        omega
      · have hstep : routeStep st r = (.proceed,
            fun k' => if k' = clientKey r.xff
              then some ⟨k + 1, t1⟩ else st k') :=
          routeStep_of_rlCheck_true (rlCheck_accept h' hcnt hnw)
        rw [acceptedCount_cons_step hstep rs c, if_pos ⟨hkey, rfl⟩]
        have hupd : (fun k' => if k' = clientKey r.xff
            then some (⟨k + 1, t1⟩ : LimitEntry) else st k') c =
              some ⟨k + 1, t1⟩ := by
          show (if c = clientKey r.xff
            then some (⟨k + 1, t1⟩ : LimitEntry) else st c) = some ⟨k + 1, t1⟩
          rw [if_pos hkey.symm]
        have hrec := ih
          (fun k' => if k' = clientKey r.xff
            then some ⟨k + 1, t1⟩ else st k') c (k + 1) t1 hupd
          fun q hq hqc => hw q (List.mem_cons_of_mem r hq) hqc
        have hk3 : (⟨k, t1⟩ : LimitEntry).count < RATE_LIMIT :=
          Nat.not_le.mp hcnt
        have hRL : RATE_LIMIT = 3 := rfl
        have hk3' : k < 3 := by
          rw [hRL] at hk3
          exact hk3
        omega
    · have hother : (routeStep st r).2 c = st c := routeStep_other_key hkey
      have hrec := ih (routeStep st r).2 c k t1 (by rw [hother]; exact h)
        fun q hq hqc => hw q (List.mem_cons_of_mem r hq) hqc
      rw [acceptedCount_cons, if_neg fun hand => hkey hand.1]
      omega

/-- From a state with no entry for the client, a burst of requests all
timestamped inside one window gets at most `RATE_LIMIT` accepted. -/
theorem acceptedCount_le_limit :
    ∀ (rs : List RLRequest) (st : RLState) (c : String) (t0 : Nat),
      st c = none →
      (∀ r ∈ rs, clientKey r.xff = c →
        t0 ≤ r.time ∧ r.time ≤ t0 + WINDOW_MS) →
      acceptedCount st rs c ≤ RATE_LIMIT := by
  intro rs
  induction rs with
  | nil => intro st c t0 _ _; exact Nat.zero_le _
  | cons r rs ih =>
    intro st c t0 h hw
    by_cases hkey : clientKey r.xff = c
    · have h' : st (clientKey r.xff) = none := by rw [hkey]; exact h
      have hstep : routeStep st r = (.proceed,
          fun k' => if k' = clientKey r.xff
            then some ⟨1, r.time⟩ else st k') :=
        routeStep_of_rlCheck_true (rlCheck_fresh h')
      rw [acceptedCount_cons_step hstep rs c, if_pos ⟨hkey, rfl⟩]
      have hupd : (fun k' => if k' = clientKey r.xff
          then some (⟨1, r.time⟩ : LimitEntry) else st k') c =
            some ⟨1, r.time⟩ := by
        show (if c = clientKey r.xff
          then some (⟨1, r.time⟩ : LimitEntry) else st c) = some ⟨1, r.time⟩
        rw [if_pos hkey.symm]
      have hbound := acceptedCount_window_bound rs
        (fun k' => if k' = clientKey r.xff
          then some ⟨1, r.time⟩ else st k') c 1 r.time hupd
        (fun q hq hqc => by
          have hq1 := hw q (List.mem_cons_of_mem r hq) hqc
          have hr1 := hw r (List.mem_cons_self r rs) hkey
          omega)
      have hRL : RATE_LIMIT = 3 := rfl
      omega
    · have hother : (routeStep st r).2 c = st c := routeStep_other_key hkey
      have hrec := ih (routeStep st r).2 c t0 (by rw [hother]; exact h)
        fun q hq hqc => hw q (List.mem_cons_of_mem r hq) hqc
      rw [acceptedCount_cons, if_neg fun hand => hkey hand.1]
      omega

/-- C9: the limiter is a process-wide counter keyed by the client
identity (first x-forwarded-for address, else "anonymous") over a fixed
60-second window: a client whose counter has reached 3 inside the
window is answered 429 with the state unchanged (the `.proceed` branch,
the only one contacting the retrieval backend and the judge, is not
taken); once more than the window has elapsed since the client's last
reset the counter restarts from 0 (so the request is accepted and the
entry becomes count 1 at the new timestamp); other clients' requests
never touch this client's entry; and from a fresh state any
single-window burst gets at most 3 requests accepted. -/
theorem rate_limiter_spec (st : RLState) (r : RLRequest) (en : LimitEntry)
    (h : st (clientKey r.xff) = some en) :
    (RATE_LIMIT ≤ en.count → ¬ WINDOW_MS < r.time - en.lastReset →
      routeStep st r = (.rateLimited, st) ∧
        statusOf (routeStep st r).1 = some 429) ∧
    (WINDOW_MS < r.time - en.lastReset →
      routeStep st r = (.proceed,
        fun k => if k = clientKey r.xff then some ⟨1, r.time⟩ else st k)) ∧
    (∀ c : String, clientKey r.xff ≠ c → (routeStep st r).2 c = st c) ∧
    clientKey none = "anonymous" ∧
    RATE_LIMIT = 3 ∧ WINDOW_MS = 60 * 1000 ∧
    (∀ (rs : List RLRequest) (c : String) (t0 : Nat),
      (∀ q ∈ rs, clientKey q.xff = c →
        t0 ≤ q.time ∧ q.time ≤ t0 + WINDOW_MS) →
      acceptedCount emptyRL rs c ≤ RATE_LIMIT) := by
  refine ⟨?_, ?_, fun c hc => routeStep_other_key hc, rfl, rfl, rfl, ?_⟩
  · intro hc hw
    have hstep : routeStep st r = (.rateLimited, st) :=
      routeStep_of_rlCheck_false (rlCheck_reject h hc hw)
    exact ⟨hstep, by rw [hstep]; rfl⟩
  · intro hw
    exact routeStep_of_rlCheck_true (rlCheck_reset h hw)
  · intro rs c t0 hq
    exact acceptedCount_le_limit rs emptyRL c t0 rfl hq

theorem rate_limiter_spec_witness :
    statusOf (routeStep
        (fun k => if k = "anonymous" then some ⟨3, 0⟩ else none)
        ⟨none, 10⟩).1 = some 429 :=
  ((rate_limiter_spec
      (fun k => if k = "anonymous" then some ⟨3, 0⟩ else none)
      ⟨none, 10⟩ ⟨3, 0⟩ rfl).1 (by decide) (by decide)).2

/-! ## C10: sticky partial result in useAdjudicate -/

theorem stickyStep_tokensUpdate {V : Type} (jsonParse : List Char → Option V)
    (s : Option V) (ts : List Char) :
    stickyStep jsonParse s (.tokensUpdate ts) =
      match lastValid jsonParse ts with
      | some v => some v
      | none => s := rfl

theorem stickyStep_failed_parse {V : Type} (jsonParse : List Char → Option V)
    (s : Option V) (ts : List Char)
    (h : lastValid jsonParse ts = none) :
    stickyStep jsonParse s (.tokensUpdate ts) = s := by
  rw [stickyStep_tokensUpdate, h]

theorem sticky_preserved {V : Type} (jsonParse : List Char → Option V) :
    ∀ (es : List (HookEvent V)) (s : Option V), s.isSome →
      (∀ e ∈ es, e ≠ HookEvent.newRequest) →
      (es.foldl (stickyStep jsonParse) s).isSome := by
  intro es
  induction es with
  | nil => intro s h _; exact h
  | cons e es ih =>
    intro s h hne
    rw [List.foldl_cons]
    apply ih
    · cases e with
      | newRequest =>
        exact absurd rfl (hne _ (List.mem_cons_self _ es))
      | finalResult v => rfl
      | tokensUpdate ts =>
        rw [stickyStep_tokensUpdate]
        cases hlv : lastValid jsonParse ts with
        | some v => rfl
        | none => exact h
    · exact fun e' he' => hne e' (List.mem_cons_of_mem e he')

/-- C10: within one request, once some token prefix has parsed to a
valid object the partial result stays non-null across all later token
updates and result parts; a prefix that fails to parse leaves the last
valid value in place; and the sticky value becomes null only through
`adjudicate` starting a new request. -/
theorem sticky_partial_result {V : Type} (jsonParse : List Char → Option V)
    (es₁ es₂ : List (HookEvent V)) (t : List Char) (v : V)
    (hparse : lastValid jsonParse t = some v)
    (hnoclear : ∀ e ∈ es₂, e ≠ HookEvent.newRequest) :
    (runSticky jsonParse (es₁ ++ .tokensUpdate t :: es₂)).isSome ∧
    (∀ (s : Option V) (ts : List Char), lastValid jsonParse ts = none →
      stickyStep jsonParse s (.tokensUpdate ts) = s) ∧
    (∀ s : Option V, stickyStep jsonParse s .newRequest = none) ∧
    (∀ (w : V) (e : HookEvent V),
      stickyStep jsonParse (some w) e = none → e = .newRequest) := by
  refine ⟨?_, stickyStep_failed_parse jsonParse, fun s => rfl, ?_⟩
  · unfold runSticky
    rw [List.foldl_append, List.foldl_cons]
    apply sticky_preserved jsonParse es₂ _ _ hnoclear
    rw [show stickyStep jsonParse (es₁.foldl (stickyStep jsonParse) none)
        (.tokensUpdate t) = some v by
      rw [stickyStep_tokensUpdate, hparse]]
    rfl
  · intro w e he
    cases e with
    | newRequest => rfl
    | finalResult w' => exact Option.noConfusion he
    | tokensUpdate ts =>
      rw [stickyStep_tokensUpdate] at he
      cases hlv : lastValid jsonParse ts <;> rw [hlv] at he <;> simp at he

theorem sticky_partial_result_witness :
    (runSticky (fun _ => some (0 : Nat))
      [HookEvent.tokensUpdate ['\x7b']]).isSome := by
  have h := (sticky_partial_result (fun _ => some (0 : Nat)) [] []
    ['\x7b'] 0 rfl (by intro e he; simp at he)).1
  simpa using h

end PeoplesCourt
